import Mathlib

/-!
Verification of the character-level joke-generation pipeline in
"Humour Generation/rnn_tensorflow.ipynb".

Python strings are modelled as `List Char`; Python dicts as association
lists (keys are unique in every dict the notebook builds, so lookup by
first match coincides with dict lookup).  The keras model is the external
collaborator: it is abstracted as a function from an encoded window to the
predicted class, which is what `model.predict_classes` composed with the
one-hot encoding produces.
-/

namespace ArtML

/-- Source: removeChars strips the four disallowed characters, one
`text.replace(char, '')` at a time, from a joke string. -/
def removeChars (text : List Char) : List Char :=
  ((((text.filter (· ≠ '\x08')).filter (· ≠ '\x10')).filter (· ≠ '~')).filter (· ≠ '^'))

/-- Source: each cleaned joke is wrapped as a marked example by
the mapping x to tilde + x + caret. -/
def mark (s : List Char) : List Char :=
  '~' :: s ++ ['^']

/-- Source: text = backslash-n .join(all_jokes.Joke) after cleaning. -/
def joinNL : List (List Char) → List Char
  | [] => []
  | [x] => x
  | x :: y :: xs => x ++ '\n' :: joinNL (y :: xs)

/-- Source: the joined cleaned corpus text. -/
def corpusText (jokes : List (List Char)) : List Char :=
  joinNL (jokes.map removeChars)

/-- Source: chars = list(set(text)); the distinct characters of the joined
cleaned corpus, in first-occurrence order (set order is unspecified in the
source; no claim depends on it). -/
def corpusChars (jokes : List (List Char)) : List Char :=
  (corpusText jokes).dedup

/-- Source: the dict comprehension assigning ch to i + 3 for i, ch in
enumerate(chars), written as a recursion on the character list with an
explicit next-code accumulator. -/
def assignCodes : List Char → Nat → List (List Char × Nat)
  | [], _ => []
  | c :: cs, k => ([c], k) :: assignCodes cs (k + 1)

/-- Source: the inverse dict comprehension i + 3 to ch. -/
def assignCodesRev : List Char → Nat → List (Nat × List Char)
  | [], _ => []
  | c :: cs, k => (k, [c]) :: assignCodesRev cs (k + 1)

/-- Source: char_labels, the forward mapping: corpus characters get codes
from 3 up, then the entries PAD to 0, tilde to 1 and caret to 2 are added. -/
def buildCharLabels (chars : List Char) : List (List Char × Nat) :=
  assignCodes chars 3 ++ [(['P', 'A', 'D'], 0), (['~'], 1), (['^'], 2)]

/-- Source: labels_char, the reverse mapping, built the same way. -/
def buildLabelsChar (chars : List Char) : List (Nat × List Char) :=
  assignCodesRev chars 3 ++ [(0, ['P', 'A', 'D']), (1, ['~']), (2, ['^'])]

/-- The notebook's char_labels for a given raw corpus. -/
def char_labels (jokes : List (List Char)) : List (List Char × Nat) :=
  buildCharLabels (corpusChars jokes)

/-- The notebook's labels_char for a given raw corpus. -/
def labels_char (jokes : List (List Char)) : List (Nat × List Char) :=
  buildLabelsChar (corpusChars jokes)

/-- Python dict lookup mapping[key] on the forward mapping: first matching
key (keys are unique in the built dicts). `none` models a KeyError. -/
def dictGet : List (List Char × Nat) → List Char → Option Nat
  | [], _ => none
  | p :: ps, key => if p.1 = key then some p.2 else dictGet ps key

/-- Python dict lookup labels_char[code] on the reverse mapping;
`none` models a KeyError. -/
def revGet : List (Nat × List Char) → Nat → Option (List Char)
  | [], _ => none
  | p :: ps, code => if p.1 = code then some p.2 else revGet ps code

/-- Source: encoded = [mapping[char] for char in in_text]; fails (KeyError)
if any character is absent from the mapping. -/
def encodeText (v : List (List Char × Nat)) : List Char → Option (List Nat)
  | [] => some []
  | c :: cs =>
    match dictGet v [c] with
    | none => none
    | some k =>
      match encodeText v cs with
      | none => none
      | some ks => some (k :: ks)

/-- Source: pad_sequences([encoded], maxlen=seq_length, truncating='pre')
on a single sequence, with keras defaults padding='pre' and value=0:
keep the last maxlen entries if longer, left-pad with 0 if shorter. -/
def pad_sequences (encoded : List Nat) (maxlen : Nat) : List Nat :=
  if maxlen ≤ encoded.length then encoded.drop (encoded.length - maxlen)
  else List.replicate (maxlen - encoded.length) 0 ++ encoded

/-- Source: the reverse-lookup loop in generate_seq.  The loop scans
mapping.items() and breaks on the first key whose value equals yhat; the
appended text is the loop variable char, so when nothing matches, the loop
runs to completion and char is left holding the LAST key of the mapping.
An empty mapping leaves char unbound (NameError), modelled as `none`. -/
def reverseLookup (mapping : List (List Char × Nat)) (yhat : Nat) : Option (List Char) :=
  match mapping.find? (fun p => p.2 == yhat) with
  | some p => some p.1
  | none => mapping.getLast?.map Prod.fst

/-- One iteration of the generation loop in generate_seq: encode the
buffer, truncate/pad to the window length, query the model, reverse-look-up
the predicted class, and append the resulting key to the buffer. -/
def genStep (model : List Nat → Nat) (mapping : List (List Char × Nat))
    (seq_length : Nat) (in_text : List Char) : Option (List Char) :=
  match encodeText mapping in_text with
  | none => none
  | some encoded =>
    match reverseLookup mapping (model (pad_sequences encoded seq_length)) with
    | none => none
    | some appended => some (in_text ++ appended)

/-- Source: generate_seq(model, mapping, seq_length, seed_text, n_chars).
The for-loop runs exactly n_chars times; there is no early exit. -/
def generate_seq (model : List Nat → Nat) (mapping : List (List Char × Nat))
    (seq_length : Nat) (seed_text : List Char) : Nat → Option (List Char)
  | 0 => some seed_text
  | n + 1 =>
    match genStep model mapping seq_length seed_text with
    | none => none
    | some t => generate_seq model mapping seq_length t n

/-- Source: the training windowing loop.  For each (already marked) coded
joke, seq = [1]*max_len + seq + [2]; then for every i in range(len(seq))
with i + max_len < len(seq), the pair (seq[i:i+max_len], seq[i+max_len])
is emitted. -/
def windowPairs (W : Nat) (codes : List Nat) : List (List Nat × Nat) :=
  let seq := List.replicate W 1 ++ codes ++ [2]
  (List.range seq.length).filterMap fun i =>
    if i + W < seq.length then some ((seq.drop i).take W, seq.getD (i + W) 0) else none

/-- The batch maximum length max(seq_lengths) used by padDataBatch
(the source's max over a nonempty list, 0 on an empty batch). -/
def maxlenOf (data : List (List Nat)) : Nat :=
  (data.map List.length).foldr max 0

/-- Source: padDataBatch(data, labels): record each member's true length,
right-pad every member with the constant 0 up to the batch maximum, and
return (x_data, seq_lengths, y_data).  The source's discarded
to_categorical call has no effect on the result. -/
def padDataBatch (data labels : List (List Nat)) :
    List (List Nat) × List Nat × List (List Nat) :=
  let seq_lengths := data.map List.length
  let maxlen := maxlenOf data
  let x_data := data.map fun u => u ++ List.replicate (maxlen - u.length) 0
  let y_data := labels.map fun u => u ++ List.replicate (maxlen - u.length) 0
  (x_data, seq_lengths, y_data)

end ArtML

namespace ArtML

/-! ### Dictionary lookup lemmas -/

lemma dictGet_append_some {l₁ l₂ : List (List Char × Nat)} {key : List Char} {v : Nat}
    (h : dictGet l₁ key = some v) : dictGet (l₁ ++ l₂) key = some v := by
  induction l₁ with
  | nil => simp [dictGet] at h
  | cons p ps ih =>
    rw [List.cons_append]
    simp only [dictGet] at h ⊢
    split at h
    · next hp => rw [if_pos hp]; exact h
    · next hp => rw [if_neg hp]; exact ih h

lemma dictGet_append_none {l₁ l₂ : List (List Char × Nat)} {key : List Char}
    (h : dictGet l₁ key = none) : dictGet (l₁ ++ l₂) key = dictGet l₂ key := by
  induction l₁ with
  | nil => simp [dictGet]
  | cons p ps ih =>
    rw [List.cons_append]
    simp only [dictGet] at h ⊢
    split at h
    · exact absurd h (by simp)
    · next hp => rw [if_neg hp]; exact ih h

lemma revGet_append_some {l₁ l₂ : List (Nat × List Char)} {code : Nat} {v : List Char}
    (h : revGet l₁ code = some v) : revGet (l₁ ++ l₂) code = some v := by
  induction l₁ with
  | nil => simp [revGet] at h
  | cons p ps ih =>
    rw [List.cons_append]
    simp only [revGet] at h ⊢
    split at h
    · next hp => rw [if_pos hp]; exact h
    · next hp => rw [if_neg hp]; exact ih h

lemma revGet_append_none {l₁ l₂ : List (Nat × List Char)} {code : Nat}
    (h : revGet l₁ code = none) : revGet (l₁ ++ l₂) code = revGet l₂ code := by
  induction l₁ with
  | nil => simp [revGet]
  | cons p ps ih =>
    rw [List.cons_append]
    simp only [revGet] at h ⊢
    split at h
    · exact absurd h (by simp)
    · next hp => rw [if_neg hp]; exact ih h

/-! ### Code assignment lemmas -/

lemma dictGet_assignCodes_bounds {cs : List Char} :
    ∀ {k : Nat} {key : List Char} {v : Nat},
      dictGet (assignCodes cs k) key = some v → k ≤ v ∧ v < k + cs.length := by
  induction cs with
  | nil => intro k key v h; simp [assignCodes, dictGet] at h
  | cons c cs ih =>
    intro k key v h
    simp only [assignCodes, dictGet] at h
    split at h
    · cases h; constructor <;> simp
    · have := ih h; simp only [List.length_cons]; omega

lemma dictGet_assignCodes_notmem {cs : List Char} {c : Char} :
    ∀ {k : Nat}, c ∉ cs → dictGet (assignCodes cs k) [c] = none := by
  induction cs with
  | nil => intro k _; simp [assignCodes, dictGet]
  | cons b cs ih =>
    intro k h
    have hb : b ≠ c := fun hbc => h (by simp [hbc])
    have hc : c ∉ cs := fun hcs => h (by simp [hcs])
    simp only [assignCodes, dictGet]
    rw [if_neg (by simp [hb]), ih hc]

lemma dictGet_assignCodes_notSingleton {cs : List Char} {key : List Char} :
    ∀ {k : Nat}, key.length ≠ 1 → dictGet (assignCodes cs k) key = none := by
  induction cs with
  | nil => intro k _; simp [assignCodes, dictGet]
  | cons b cs ih =>
    intro k h
    simp only [assignCodes, dictGet]
    rw [if_neg (fun he => h (by rw [← he]; rfl)), ih h]

lemma revGet_assignCodes_lt {cs : List Char} :
    ∀ {k j : Nat}, j < k → revGet (assignCodesRev cs k) j = none := by
  induction cs with
  | nil => intro k j _; simp [assignCodesRev, revGet]
  | cons b cs ih =>
    intro k j h
    simp only [assignCodesRev, revGet]
    rw [if_neg (by omega), ih (by omega)]

lemma revGet_assignCodes_ge {cs : List Char} :
    ∀ {k j : Nat}, k + cs.length ≤ j → revGet (assignCodesRev cs k) j = none := by
  induction cs with
  | nil => intro k j _; simp [assignCodesRev, revGet]
  | cons b cs ih =>
    intro k j h
    simp only [assignCodesRev, revGet]
    have hl : (b :: cs).length = cs.length + 1 := rfl
    rw [hl] at h
    rw [if_neg (by omega), ih (by omega)]

lemma assignCodes_roundtrip {cs : List Char} :
    ∀ {k : Nat} {c : Char}, cs.Nodup → c ∈ cs →
      ∃ j, k ≤ j ∧ j < k + cs.length ∧
        dictGet (assignCodes cs k) [c] = some j ∧
        revGet (assignCodesRev cs k) j = some [c] := by
  induction cs with
  | nil => intro k c _ h; simp at h
  | cons b cs ih =>
    intro k c hnd hmem
    rw [List.nodup_cons] at hnd
    rcases List.mem_cons.mp hmem with rfl | hc
    · refine ⟨k, le_refl k, by simp, ?_, ?_⟩
      · simp [assignCodes, dictGet]
      · simp [assignCodesRev, revGet]
    · have hbc : b ≠ c := fun hbc => hnd.1 (hbc ▸ hc)
      obtain ⟨j, hj1, hj2, hj3, hj4⟩ := @ih (k + 1) c hnd.2 hc
      have hb1 : k ≤ j := by omega
      have hb2 : j < k + (b :: cs).length := by simp only [List.length_cons]; omega
      refine ⟨j, hb1, hb2, ?_, ?_⟩
      · simp only [assignCodes, dictGet]
        rw [if_neg (by simp [hbc]), hj3]
      · simp only [assignCodesRev, revGet]
        rw [if_neg (by omega), hj4]

lemma assignCodes_snd_append_perm :
    ∀ (cs : List Char) (k : Nat),
      ((assignCodes cs k).map Prod.snd ++ List.range k).Perm
        (List.range (k + cs.length)) := by
  intro cs
  induction cs with
  | nil => intro k; simp [assignCodes]
  | cons c cs ih =>
    intro k
    have h1 : (assignCodes (c :: cs) k).map Prod.snd ++ List.range k
        = k :: ((assignCodes cs (k + 1)).map Prod.snd ++ List.range k) := by
      simp [assignCodes]
    rw [h1]
    have h2 : (k :: ((assignCodes cs (k + 1)).map Prod.snd ++ List.range k)).Perm
        ((assignCodes cs (k + 1)).map Prod.snd ++ List.range (k + 1)) := by
      have := (List.perm_append_singleton k
        ((assignCodes cs (k + 1)).map Prod.snd ++ List.range k)).symm
      refine this.trans ?_
      rw [List.append_assoc, ← List.range_succ]
    refine h2.trans ?_
    have h3 := ih (k + 1)
    have h4 : k + (c :: cs).length = k + 1 + cs.length := by simp; omega
    rw [h4]
    exact h3

/-! ### Corpus character lemmas -/

lemma mem_removeChars {s : List Char} {c : Char} (h : c ∈ removeChars s) :
    c ∈ s ∧ c ≠ '\x08' ∧ c ≠ '\x10' ∧ c ≠ '~' ∧ c ≠ '^' := by
  simp only [removeChars, List.mem_filter, decide_eq_true_eq] at h
  tauto

lemma mem_joinNL {xs : List (List Char)} {c : Char} (h : c ∈ joinNL xs) :
    c = '\n' ∨ ∃ l ∈ xs, c ∈ l := by
  induction xs with
  | nil => simp [joinNL] at h
  | cons x xs ih =>
    cases xs with
    | nil =>
      simp only [joinNL] at h
      exact Or.inr ⟨x, by simp, h⟩
    | cons y ys =>
      simp only [joinNL, List.mem_append, List.mem_cons] at h
      rcases h with hx | rfl | hj
      · exact Or.inr ⟨x, by simp, hx⟩
      · exact Or.inl rfl
      · rcases ih hj with hnl | ⟨l, hl, hc⟩
        · exact Or.inl hnl
        · exact Or.inr ⟨l, by simp [List.mem_cons] at hl ⊢; tauto, hc⟩

lemma corpusChars_nodup (jokes : List (List Char)) : (corpusChars jokes).Nodup :=
  List.nodup_dedup _

lemma corpusChars_no_sentinels {jokes : List (List Char)} {c : Char}
    (h : c ∈ corpusChars jokes) : c ≠ '~' ∧ c ≠ '^' := by
  rw [corpusChars, List.mem_dedup, corpusText] at h
  rcases mem_joinNL h with rfl | ⟨l, hl, hc⟩
  · constructor <;> decide
  · rw [List.mem_map] at hl
    obtain ⟨j, _, rfl⟩ := hl
    have := mem_removeChars hc
    tauto

/-! ### Encoding lemmas -/

lemma encodeText_length {v : List (List Char × Nat)} {t : List Char} {ks : List Nat}
    (h : encodeText v t = some ks) : ks.length = t.length := by
  induction t generalizing ks with
  | nil => simp only [encodeText, Option.some.injEq] at h; subst h; rfl
  | cons c cs ih =>
    simp only [encodeText] at h
    cases hd : dictGet v [c] with
    | none => rw [hd] at h; cases h
    | some k =>
      rw [hd] at h
      cases he : encodeText v cs with
      | none => rw [he] at h; cases h
      | some ks2 =>
        rw [he] at h
        cases h
        simp [ih he]

lemma encodeText_append {v : List (List Char × Nat)} {t₁ t₂ : List Char}
    {k₁ k₂ : List Nat} (h₁ : encodeText v t₁ = some k₁)
    (h₂ : encodeText v t₂ = some k₂) :
    encodeText v (t₁ ++ t₂) = some (k₁ ++ k₂) := by
  induction t₁ generalizing k₁ with
  | nil => simp only [encodeText, Option.some.injEq] at h₁; subst h₁; simpa using h₂
  | cons c cs ih =>
    simp only [encodeText] at h₁
    cases hd : dictGet v [c] with
    | none => rw [hd] at h₁; cases h₁
    | some k =>
      rw [hd] at h₁
      cases he : encodeText v cs with
      | none => rw [he] at h₁; cases h₁
      | some ks2 =>
        rw [he] at h₁
        cases h₁
        rw [List.cons_append]
        simp only [encodeText]
        rw [hd, ih he]
        rfl

lemma encodeText_singleton {v : List (List Char × Nat)} {c : Char} {k : Nat}
    (h : dictGet v [c] = some k) : encodeText v [c] = some [k] := by
  simp [encodeText, h]

end ArtML

namespace ArtML

/-! ### Windowing lemmas -/

lemma filterMap_range_if {α : Type} (g : Nat → α) (W m : Nat) :
    ∀ n, ((List.range n).filterMap fun i => if i + W < m then some (g i) else none)
      = (List.range (min n (m - W))).map g := by
  intro n
  induction n with
  | zero => simp
  | succ n ih =>
    rw [List.range_succ, List.filterMap_append, ih]
    by_cases h : n + W < m
    · have h1 : min n (m - W) = n := by omega
      have h2 : min (n + 1) (m - W) = n + 1 := by omega
      rw [h1, h2, List.range_succ, List.map_append]
      simp [h]
    · have h1 : min n (m - W) = m - W := by omega
      have h2 : min (n + 1) (m - W) = m - W := by omega
      rw [h1, h2]
      simp [h]

lemma windowPairs_eq (W : Nat) (codes : List Nat) :
    windowPairs W codes
      = (List.range (codes.length + 1)).map fun i =>
          (((List.replicate W 1 ++ codes ++ [2]).drop i).take W,
           (List.replicate W 1 ++ codes ++ [2]).getD (i + W) 0) := by
  have hlen : (List.replicate W 1 ++ codes ++ [2]).length = W + codes.length + 1 := by
    simp
    omega
  simp only [windowPairs]
  rw [filterMap_range_if, hlen]
  have hmin : min (W + codes.length + 1) (W + codes.length + 1 - W) = codes.length + 1 := by
    omega
  rw [hmin]

lemma getD_concat_length (l : List Nat) (a d : Nat) : (l ++ [a]).getD l.length d = a := by
  induction l with
  | nil => rfl
  | cons b l ih =>
    simp only [List.cons_append, List.length_cons, List.getD_cons_succ]
    exact ih

lemma windowPairs_length (W : Nat) (codes : List Nat) :
    (windowPairs W codes).length = codes.length + 1 := by
  rw [windowPairs_eq]
  simp

lemma windowPairs_last (W : Nat) (codes : List Nat) :
    ∃ w, (windowPairs W codes).getLast? = some (w, 2) := by
  have hidx : codes.length + W = (List.replicate W 1 ++ codes).length := by
    simp [Nat.add_comm]
  have hg : (List.replicate W 1 ++ codes ++ [2]).getD (codes.length + W) 0 = 2 := by
    rw [hidx, getD_concat_length]
  refine ⟨((List.replicate W 1 ++ codes ++ [2]).drop codes.length).take W, ?_⟩
  rw [windowPairs_eq, List.range_succ, List.map_append, List.map_cons, List.map_nil,
    List.getLast?_concat, hg]

/-! ### Batch padding lemmas -/

lemma le_maxlenOf {data : List (List Nat)} {u : List Nat} (h : u ∈ data) :
    u.length ≤ maxlenOf data := by
  induction data with
  | nil => simp at h
  | cons x xs ih =>
    rcases List.mem_cons.mp h with rfl | hx
    · exact le_max_left _ _
    · exact le_trans (ih hx) (le_max_right _ _)

lemma getD_map_lists {data : List (List Nat)} {f : List Nat → List Nat} {i : Nat}
    (h : i < data.length) : (data.map f).getD i [] = f (data.getD i []) := by
  induction data generalizing i with
  | nil => simp at h
  | cons x xs ih =>
    cases i with
    | zero => rfl
    | succ i =>
      simp only [List.map_cons, List.getD_cons_succ]
      exact ih (by simpa using h)

end ArtML

namespace ArtML

/-! ### Further vocabulary lemmas -/

lemma assignCodes_length (cs : List Char) : ∀ k, (assignCodes cs k).length = cs.length := by
  induction cs with
  | nil => intro k; rfl
  | cons c cs ih => intro k; simp [assignCodes, ih]

lemma assignCodes_fst (cs : List Char) :
    ∀ k, (assignCodes cs k).map Prod.fst = cs.map (fun c => [c]) := by
  induction cs with
  | nil => intro k; rfl
  | cons c cs ih => intro k; simp [assignCodes, ih]

lemma buildCharLabels_snd_perm (chars : List Char) :
    ((buildCharLabels chars).map Prod.snd).Perm (List.range (3 + chars.length)) := by
  have h := assignCodes_snd_append_perm chars 3
  have h2 : (buildCharLabels chars).map Prod.snd
      = (assignCodes chars 3).map Prod.snd ++ [0, 1, 2] := by
    simp [buildCharLabels]
  have h3 : (List.range 3 : List Nat) = [0, 1, 2] := by decide
  rw [h2, ← h3]
  exact h

lemma getD_map_general {α β : Type} (f : α → β) {l : List α} {i : Nat}
    (h : i < l.length) (d₁ : α) (d₂ : β) : (l.map f).getD i d₂ = f (l.getD i d₁) := by
  induction l generalizing i with
  | nil => simp at h
  | cons x xs ih =>
    cases i with
    | zero => rfl
    | succ i =>
      simp only [List.map_cons, List.getD_cons_succ]
      exact ih (by simpa using h)

/-! ### Claim theorems -/

/-- Claim C5: the fixed-length truncate/pad step used at generation time
always produces a window of length exactly W; when the sequence is at least
as long as W it keeps exactly the last W codes (the result is a suffix of
the input of length W); when it is shorter it left-pads with the
Pad-sentinel code 0, leaving the input itself as the tail. -/
theorem pad_sequences_spec (l : List Nat) (W : Nat) :
    (pad_sequences l W).length = W
    ∧ (W ≤ l.length → List.IsSuffix (pad_sequences l W) l)
    ∧ (l.length < W →
        (pad_sequences l W).take (W - l.length) = List.replicate (W - l.length) 0
        ∧ (pad_sequences l W).drop (W - l.length) = l) := by
  unfold pad_sequences
  by_cases h : W ≤ l.length
  · rw [if_pos h]
    refine ⟨?_, fun _ => List.drop_suffix _ _, fun hlt => absurd h (by omega)⟩
    rw [List.length_drop]
    omega
  · rw [if_neg h]
    refine ⟨?_, fun hle => absurd hle h, fun hlt => ⟨?_, ?_⟩⟩
    · simp only [List.length_append, List.length_replicate]
      omega
    · exact List.take_left' (List.length_replicate _ _)
    · exact List.drop_left' (List.length_replicate _ _)

/-- Witness for pad_sequences_spec at the spec's own examples: the coded
"hello" with W = 3 keeps its last three codes, and the coded "hi" with
W = 5 is left-padded with three Pad codes. -/
theorem pad_sequences_spec_witness :
    List.IsSuffix (pad_sequences [8, 5, 12, 12, 15] 3) [8, 5, 12, 12, 15]
    ∧ (pad_sequences [8, 9] 5).take 3 = List.replicate 3 0
    ∧ (pad_sequences [8, 9] 5).drop 3 = [8, 9] :=
  ⟨(pad_sequences_spec [8, 5, 12, 12, 15] 3).2.1 (by decide),
   ((pad_sequences_spec [8, 9] 5).2.2 (by decide)).1,
   ((pad_sequences_spec [8, 9] 5).2.2 (by decide)).2⟩

/-- Claim C6: cleaning a raw example and then marking it yields a string
that begins with exactly one Start sentinel, ends with exactly one End
sentinel, and contains no backspace, no x10 control character, and no
occurrence of tilde or caret besides the two added boundary markers. -/
theorem clean_mark_sentinels (e : List Char) :
    (mark (removeChars e)).head? = some '~'
    ∧ (mark (removeChars e)).getLast? = some '^'
    ∧ (mark (removeChars e)).count '~' = 1
    ∧ (mark (removeChars e)).count '^' = 1
    ∧ (mark (removeChars e)).count '\x08' = 0
    ∧ (mark (removeChars e)).count '\x10' = 0 := by
  have hcount : ∀ a : Char, a = '\x08' ∨ a = '\x10' ∨ a = '~' ∨ a = '^' →
      (removeChars e).count a = 0 := by
    intro a ha
    rw [List.count_eq_zero]
    intro hmem
    rcases mem_removeChars hmem with ⟨_, h1, h2, h3, h4⟩
    rcases ha with rfl | rfl | rfl | rfl <;> simp_all
  refine ⟨rfl, List.getLast?_concat _, ?_, ?_, ?_, ?_⟩
  · show (('~' :: (removeChars e ++ ['^'])).count '~') = 1
    rw [List.count_cons, List.count_append, hcount '~' (by tauto)]
    decide
  · show (('~' :: (removeChars e ++ ['^'])).count '^') = 1
    rw [List.count_cons, List.count_append, hcount '^' (by tauto)]
    decide
  · show (('~' :: (removeChars e ++ ['^'])).count '\x08') = 0
    rw [List.count_cons, List.count_append, hcount '\x08' (by tauto)]
    decide
  · show (('~' :: (removeChars e ++ ['^'])).count '\x10') = 0
    rw [List.count_cons, List.count_append, hcount '\x10' (by tauto)]
    decide


/-- Claim C7: for every character of the built vocabulary (corpus
characters and the two sentinel glyphs), decoding the code obtained by
encoding it returns the character again. -/
theorem decode_encode_id (jokes : List (List Char)) (c : Char)
    (hc : c ∈ corpusChars jokes ∨ c = '~' ∨ c = '^') :
    ∃ k, dictGet (char_labels jokes) [c] = some k
      ∧ revGet (labels_char jokes) k = some [c] := by
  rcases hc with hmem | rfl | rfl
  · obtain ⟨j, hj1, hj2, hj3, hj4⟩ :=
      assignCodes_roundtrip (corpusChars_nodup jokes) hmem
    refine ⟨j, ?_, ?_⟩
    · rw [char_labels, buildCharLabels]
      exact dictGet_append_some hj3
    · rw [labels_char, buildLabelsChar]
      exact revGet_append_some hj4
  · have hnm : '~' ∉ corpusChars jokes := fun h => (corpusChars_no_sentinels h).1 rfl
    refine ⟨1, ?_, ?_⟩
    · rw [char_labels, buildCharLabels,
        dictGet_append_none (dictGet_assignCodes_notmem hnm)]
      decide
    · rw [labels_char, buildLabelsChar,
        revGet_append_none (revGet_assignCodes_lt (by omega))]
      decide
  · have hnm : '^' ∉ corpusChars jokes := fun h => (corpusChars_no_sentinels h).2 rfl
    refine ⟨2, ?_, ?_⟩
    · rw [char_labels, buildCharLabels,
        dictGet_append_none (dictGet_assignCodes_notmem hnm)]
      decide
    · rw [labels_char, buildLabelsChar,
        revGet_append_none (revGet_assignCodes_lt (by omega))]
      decide

/-- Witness for decode_encode_id on the corpus made of the single joke
"hi" and its corpus character h. -/
theorem decode_encode_id_witness :
    ∃ k, dictGet (char_labels [['h', 'i']]) ['h'] = some k
      ∧ revGet (labels_char [['h', 'i']]) k = some ['h'] :=
  decode_encode_id [['h', 'i']] 'h' (Or.inl (by decide))

/-- Claim C4: for every corpus, the vocabulary has size 3 plus the number
of distinct characters of the cleaned corpus text, its keys are pairwise
distinct (it really is a dict of that size), its codes are exactly the
contiguous range [0, size) with no gaps, the sentinels get PAD = 0,
START = 1, END = 2, and every corpus character gets a code that is at
least 3. -/
theorem vocabulary_contiguous (jokes : List (List Char)) :
    (char_labels jokes).length = 3 + (corpusChars jokes).length
    ∧ ((char_labels jokes).map Prod.fst).Nodup
    ∧ ((char_labels jokes).map Prod.snd).Perm
        (List.range ((char_labels jokes).length))
    ∧ dictGet (char_labels jokes) ['P', 'A', 'D'] = some 0
    ∧ dictGet (char_labels jokes) ['~'] = some 1
    ∧ dictGet (char_labels jokes) ['^'] = some 2
    ∧ ∀ c ∈ corpusChars jokes,
        ∃ k, dictGet (char_labels jokes) [c] = some k ∧ 3 ≤ k := by
  have hlen : (char_labels jokes).length = 3 + (corpusChars jokes).length := by
    rw [char_labels, buildCharLabels]
    simp [assignCodes_length]
    omega
  refine ⟨hlen, ?_, ?_, ?_, ?_, ?_, ?_⟩
  · have hkeys : (char_labels jokes).map Prod.fst
        = (corpusChars jokes).map (fun c => [c]) ++ [['P', 'A', 'D'], ['~'], ['^']] := by
      rw [char_labels, buildCharLabels]
      simp [assignCodes_fst]
    rw [hkeys]
    have hinj : Function.Injective (fun c : Char => [c]) := by
      intro a b hab
      simpa using hab
    refine List.Nodup.append (List.Nodup.map hinj (corpusChars_nodup jokes))
      (by decide) ?_
    intro x hx1 hx2
    rw [List.mem_map] at hx1
    obtain ⟨c, hc, rfl⟩ := hx1
    have hns := corpusChars_no_sentinels hc
    simp only [List.mem_cons, List.not_mem_nil, or_false] at hx2
    rcases hx2 with h1 | h1 | h1
    · have := congrArg List.length h1
      simp at this
    · have : c = '~' := by simpa using h1
      exact hns.1 this
    · have : c = '^' := by simpa using h1
      exact hns.2 this
  · rw [hlen]
    exact buildCharLabels_snd_perm (corpusChars jokes)
  · rw [char_labels, buildCharLabels,
      dictGet_append_none (dictGet_assignCodes_notSingleton (by decide))]
    decide
  · have hnm : '~' ∉ corpusChars jokes := fun h => (corpusChars_no_sentinels h).1 rfl
    rw [char_labels, buildCharLabels,
      dictGet_append_none (dictGet_assignCodes_notmem hnm)]
    decide
  · have hnm : '^' ∉ corpusChars jokes := fun h => (corpusChars_no_sentinels h).2 rfl
    rw [char_labels, buildCharLabels,
      dictGet_append_none (dictGet_assignCodes_notmem hnm)]
    decide
  · intro c hc
    obtain ⟨j, hj1, hj2, hj3, _⟩ :=
      assignCodes_roundtrip (corpusChars_nodup jokes) hc
    refine ⟨j, ?_, hj1⟩
    rw [char_labels, buildCharLabels]
    exact dictGet_append_some hj3

/-- Claim C10: code 0 is keyed by the three-character string PAD, so no
single character encodes to 0 and decoding 0 yields that three-character
string; codes 0, 1 and 2 stay reserved for PAD, tilde and caret in both
directions of the vocabulary. -/
theorem pad_code_reserved (jokes : List (List Char)) :
    dictGet (char_labels jokes) ['P', 'A', 'D'] = some 0
    ∧ (∀ c : Char, dictGet (char_labels jokes) [c] ≠ some 0)
    ∧ revGet (labels_char jokes) 0 = some ['P', 'A', 'D']
    ∧ revGet (labels_char jokes) 1 = some ['~']
    ∧ revGet (labels_char jokes) 2 = some ['^']
    ∧ dictGet (char_labels jokes) ['~'] = some 1
    ∧ dictGet (char_labels jokes) ['^'] = some 2 := by
  have hsent : ∀ j : Nat, j < 3 →
      revGet (labels_char jokes) j = revGet [(0, ['P', 'A', 'D']), (1, ['~']), (2, ['^'])] j := by
    intro j hj
    rw [labels_char, buildLabelsChar]
    exact revGet_append_none (revGet_assignCodes_lt (by omega))
  have htil : '~' ∉ corpusChars jokes := fun h => (corpusChars_no_sentinels h).1 rfl
  have hcar : '^' ∉ corpusChars jokes := fun h => (corpusChars_no_sentinels h).2 rfl
  refine ⟨?_, ?_, ?_, ?_, ?_, ?_, ?_⟩
  · rw [char_labels, buildCharLabels,
      dictGet_append_none (dictGet_assignCodes_notSingleton (by decide))]
    decide
  · intro c
    cases hd : dictGet (assignCodes (corpusChars jokes) 3) [c] with
    | some v =>
      have hb := dictGet_assignCodes_bounds hd
      have h2 : dictGet (char_labels jokes) [c] = some v := by
        rw [char_labels, buildCharLabels]
        exact dictGet_append_some hd
      rw [h2]
      intro hcontra
      have : v = 0 := by simpa using hcontra
      omega
    | none =>
      have h2 : dictGet (char_labels jokes) [c]
          = dictGet [(['P', 'A', 'D'], 0), (['~'], 1), (['^'], 2)] [c] := by
        rw [char_labels, buildCharLabels]
        exact dictGet_append_none hd
      rw [h2]
      simp only [dictGet]
      split_ifs with h1 h2a h3
      · have := congrArg List.length h1
        simp at this
      · simp
      · simp
      · simp
  · rw [hsent 0 (by omega)]; decide
  · rw [hsent 1 (by omega)]; decide
  · rw [hsent 2 (by omega)]; decide
  · rw [char_labels, buildCharLabels,
      dictGet_append_none (dictGet_assignCodes_notmem htil)]
    decide
  · rw [char_labels, buildCharLabels,
      dictGet_append_none (dictGet_assignCodes_notmem hcar)]
    decide

end ArtML

namespace ArtML

/-- Claim C1 counterexample: with the deterministic stub model that always
predicts the End-sentinel class, generate_seq on seed "hi" with
maxChars = 2 appends TWO End sentinels — the loop does not stop after the
first one, so the claimed early termination does not happen. -/
theorem generate_no_early_stop_cex :
    generate_seq (fun _ => 2) (char_labels [['h', 'i']]) 3 ['h', 'i'] 2
        = some ['h', 'i', '^', '^']
    ∧ (['h', 'i', '^', '^'] : List Char).length ≠ (['h', 'i'] : List Char).length + 1 :=
  ⟨by decide, by decide⟩

/-- Claim C1 amended: the generation loop has no early-exit test at all;
with the always-End stub model it runs all maxChars iterations and appends
one End sentinel per iteration, for every window width, iteration budget
and encodable seed. -/
theorem generate_end_stub (mapping : List (List Char × Nat)) (W n : Nat)
    (seed : List Char) (es : List Nat) (k : Nat)
    (henc : encodeText mapping seed = some es)
    (hfind : mapping.find? (fun p => p.2 == 2) = some (['^'], 2))
    (hhat : dictGet mapping ['^'] = some k) :
    generate_seq (fun _ => 2) mapping W seed n
      = some (seed ++ List.replicate n '^') := by
  induction n generalizing seed es with
  | zero => simp [generate_seq]
  | succ n ih =>
    have hstep : genStep (fun _ => 2) mapping W seed = some (seed ++ ['^']) := by
      simp only [genStep, henc, reverseLookup, hfind]
    have henc2 : encodeText mapping (seed ++ ['^']) = some (es ++ [k]) :=
      encodeText_append henc (encodeText_singleton hhat)
    simp only [generate_seq, hstep]
    rw [ih (seed ++ ['^']) (es ++ [k]) henc2]
    simp [List.append_assoc, List.replicate_succ]

/-- Witness for generate_end_stub: corpus "hi", seed "h", W = 5, two
iterations, yielding "h^^". -/
theorem generate_end_stub_witness :
    generate_seq (fun _ => 2) (char_labels [['h', 'i']]) 5 ['h'] 2
      = some (['h'] ++ List.replicate 2 '^') :=
  generate_end_stub (char_labels [['h', 'i']]) 5 2 ['h'] [3] 2
    (by decide) (by decide) (by decide)

/-- Claim C2 counterexample: the empty example is marked and encoded as
[1, 2]; the windowing loop with W = 3 emits 3 pairs, not the claimed
L + 1 = 1 pair. -/
theorem windowPairs_count_cex :
    encodeText (char_labels [['h', 'i']]) (mark []) = some [1, 2]
    ∧ (windowPairs 3 [1, 2]).length = 3
    ∧ (windowPairs 3 [1, 2]).length ≠ ([] : List Char).length + 1 :=
  ⟨by decide, by decide, by decide⟩

/-- Claim C2 amended: the sequence being windowed is the MARKED example
(already carrying one Start and one End code) with W Start codes prepended
and one extra End code appended, so an example of length L yields exactly
L + 3 (Window, Label) pairs; the final label is the End sentinel, and a
pair is emitted for each offset i with i + W < len(paddedSequence) as
claimed. -/
theorem windowPairs_marked_count (jokes : List (List Char)) (e : List Char)
    (es : List Nat) (W : Nat)
    (h : encodeText (char_labels jokes) (mark e) = some es) :
    (windowPairs W es).length = e.length + 3
    ∧ ∃ w, (windowPairs W es).getLast? = some (w, 2) := by
  have hlen := encodeText_length h
  have hm : (mark e).length = e.length + 2 := by simp [mark]
  constructor
  · rw [windowPairs_length, hlen, hm]
  · exact windowPairs_last W es

/-- Witness for windowPairs_marked_count: corpus "hi", example "h"
(marked and encoded as [1, 3, 2]), W = 3: four pairs, last label is the
End code 2. -/
theorem windowPairs_marked_count_witness :
    (windowPairs 3 [1, 3, 2]).length = (['h'] : List Char).length + 3
    ∧ ∃ w, (windowPairs 3 [1, 3, 2]).getLast? = some (w, 2) :=
  windowPairs_marked_count [['h', 'i']] ['h'] [1, 3, 2] 3 (by decide)

/-- Claim C3 counterexample: with a model whose argmax 999 is far out of
range, the generation call does NOT fail: the reverse-lookup loop matches
nothing, the loop variable retains the mapping's last key (the caret), and
that character is silently appended. -/
theorem out_of_range_argmax_cex :
    generate_seq (fun _ => 999) (char_labels [['h', 'i']]) 5 ['h'] 1
        = some ['h', '^']
    ∧ revGet (labels_char [['h', 'i']]) 999 = none :=
  ⟨by decide, by decide⟩

lemma mem_assignCodes_snd {cs : List Char} :
    ∀ {k : Nat} {p : List Char × Nat},
      p ∈ assignCodes cs k → k ≤ p.2 ∧ p.2 < k + cs.length := by
  induction cs with
  | nil => intro k p h; simp [assignCodes] at h
  | cons c cs ih =>
    intro k p h
    simp only [assignCodes, List.mem_cons] at h
    rcases h with rfl | h
    · exact ⟨le_refl _, by simp only [List.length_cons]; omega⟩
    · have := ih h
      simp only [List.length_cons]
      omega

/-- Claim C3 amended: decoding through the reverse dictionary labels_char
does fail (KeyError) for every code outside [0, size()), but an
out-of-range argmax inside generate_seq never makes the call fail: for
every model, corpus, window width and encodable seed whose predicted class
falls outside [0, size()), the reverse-lookup loop matches nothing, its
loop variable is left holding the last mapping key (the caret), and that
key is silently appended. -/
theorem unknown_code_behavior :
    (∀ (chars : List Char) (code : Nat), chars.length + 3 ≤ code →
        revGet (buildLabelsChar chars) code = none)
    ∧ (∀ (m : List Nat → Nat) (jokes : List (List Char)) (W : Nat)
        (seed : List Char) (es : List Nat),
        encodeText (char_labels jokes) seed = some es →
        (corpusChars jokes).length + 3 ≤ m (pad_sequences es W) →
        generate_seq m (char_labels jokes) W seed 1 = some (seed ++ ['^'])) := by
  constructor
  · intro chars code hcode
    rw [buildLabelsChar,
      revGet_append_none (revGet_assignCodes_ge (by omega))]
    simp only [revGet]
    rw [if_neg (by omega), if_neg (by omega), if_neg (by omega)]
  · intro m jokes W seed es henc hcode
    have hfind : (char_labels jokes).find?
        (fun p => p.2 == m (pad_sequences es W)) = none := by
      rw [List.find?_eq_none]
      intro p hp
      simp only [char_labels, buildCharLabels, List.mem_append] at hp
      rcases hp with hp | hp
      · have := mem_assignCodes_snd hp
        simp only [beq_iff_eq]
        omega
      · simp only [List.mem_cons, List.not_mem_nil, or_false] at hp
        rcases hp with rfl | rfl | rfl <;> simp <;> omega
    have hlast : (char_labels jokes).getLast? = some (['^'], 2) := by
      rw [char_labels, buildCharLabels]
      rw [show ([(['P', 'A', 'D'], 0), (['~'], 1), (['^'], 2)] : List (List Char × Nat))
          = [(['P', 'A', 'D'], 0), (['~'], 1)] ++ [(['^'], 2)] from rfl,
        ← List.append_assoc, List.getLast?_concat]
    simp only [generate_seq, genStep, henc, reverseLookup, hfind, hlast,
      Option.map_some']

/-- Witness for unknown_code_behavior: code 99 is out of range for the
two-character vocabulary and fails to decode, while a model whose argmax
is the out-of-range 999 silently appends the caret to seed "h". -/
theorem unknown_code_behavior_witness :
    revGet (buildLabelsChar ['h', 'i']) 99 = none
    ∧ generate_seq (fun _ => 999) (char_labels [['h', 'i']]) 5 ['h'] 1
        = some (['h'] ++ ['^']) :=
  ⟨unknown_code_behavior.1 ['h', 'i'] 99 (by decide),
   unknown_code_behavior.2 (fun _ => 999) [['h', 'i']] 5 ['h'] [3]
     (by decide) (by decide)⟩

/-- Claim C9 counterexample: a model whose argmax is the Pad class 0 makes
generate_seq append the three-character key PAD in a single iteration, so
the returned string does not have length len(seed) + maxChars. -/
theorem generate_pad_append_cex :
    generate_seq (fun _ => 0) (char_labels [['h', 'i']]) 5 ['h'] 1
        = some ['h', 'P', 'A', 'D']
    ∧ (['h', 'P', 'A', 'D'] : List Char).length ≠ (['h'] : List Char).length + 1 :=
  ⟨by decide, by decide⟩

/-- Claim C9 amended: the loop always runs exactly maxChars iterations,
each appending the first mapping key whose code equals the model's output;
whenever every prediction matches a single-character key that is itself in
the mapping, exactly one character is appended per iteration and the
result has length len(seedText) + maxChars.  (A prediction matching the
three-character PAD key breaks the length property, as the counterexample
shows.) -/
theorem generate_fixed_iterations (m : List Nat → Nat)
    (mapping : List (List Char × Nat)) (W n : Nat) :
    ∀ (seed : List Char) (es : List Nat),
      encodeText mapping seed = some es →
      (∀ w : List Nat, ∃ c k, mapping.find? (fun p => p.2 == m w) = some ([c], k)
        ∧ ∃ j, dictGet mapping [c] = some j) →
      ∃ out, generate_seq m mapping W seed n = some out
        ∧ out.length = seed.length + n := by
  induction n with
  | zero =>
    intro seed es henc _
    exact ⟨seed, by simp [generate_seq], by simp⟩
  | succ n ih =>
    intro seed es henc hm
    obtain ⟨c, k, hf, j, hj⟩ := hm (pad_sequences es W)
    have hstep : genStep m mapping W seed = some (seed ++ [c]) := by
      simp only [genStep, henc, reverseLookup, hf]
    have henc2 : encodeText mapping (seed ++ [c]) = some (es ++ [j]) :=
      encodeText_append henc (encodeText_singleton hj)
    obtain ⟨out, hout, hlen⟩ := ih (seed ++ [c]) (es ++ [j]) henc2 hm
    refine ⟨out, ?_, ?_⟩
    · simp only [generate_seq, hstep]
      exact hout
    · rw [hlen]
      simp only [List.length_append, List.length_cons, List.length_nil]
      omega

/-- Witness for generate_fixed_iterations: the always-End stub on corpus
"hi" with seed "h" and two iterations returns a string of length 3. -/
theorem generate_fixed_iterations_witness :
    ∃ out, generate_seq (fun _ => 2) (char_labels [['h', 'i']]) 5 ['h'] 2 = some out
      ∧ out.length = (['h'] : List Char).length + 2 :=
  generate_fixed_iterations (fun _ => 2) (char_labels [['h', 'i']]) 5 2 ['h'] [3]
    (by decide) (fun w => ⟨'^', 2, rfl, 2, rfl⟩)

/-- Claim C8: padDataBatch returns the true-length vector of its batch,
pads every input member and every label member with the Pad code 0 at the
trailing end up to the maximum length among the batch's own members, and
preserves each input and each label as the prefix of its padded form,
index-aligned with the length vector.  It is a function of
(data, labels) alone — the translated source reads no other state. -/
theorem padDataBatch_spec (data labels : List (List Nat))
    (hlab : ∀ u ∈ labels, u.length ≤ maxlenOf data) :
    (padDataBatch data labels).2.1 = data.map List.length
    ∧ (∀ u ∈ (padDataBatch data labels).1, u.length = maxlenOf data)
    ∧ (∀ u ∈ (padDataBatch data labels).2.2, u.length = maxlenOf data)
    ∧ (∀ i, i < data.length →
        ((padDataBatch data labels).1.getD i []).take ((data.getD i []).length)
          = data.getD i []
        ∧ ((padDataBatch data labels).1.getD i []).drop ((data.getD i []).length)
          = List.replicate (maxlenOf data - (data.getD i []).length) 0
        ∧ (padDataBatch data labels).2.1.getD i 0 = (data.getD i []).length)
    ∧ (∀ i, i < labels.length →
        ((padDataBatch data labels).2.2.getD i []).take ((labels.getD i []).length)
          = labels.getD i []
        ∧ ((padDataBatch data labels).2.2.getD i []).drop ((labels.getD i []).length)
          = List.replicate (maxlenOf data - (labels.getD i []).length) 0) := by
  refine ⟨rfl, ?_, ?_, ?_, ?_⟩
  · intro u hu
    simp only [padDataBatch, List.mem_map] at hu
    obtain ⟨v, hv, rfl⟩ := hu
    have := le_maxlenOf hv
    simp only [List.length_append, List.length_replicate]
    omega
  · intro u hu
    simp only [padDataBatch, List.mem_map] at hu
    obtain ⟨v, hv, rfl⟩ := hu
    have := hlab v hv
    simp only [List.length_append, List.length_replicate]
    omega
  · intro i hi
    simp only [padDataBatch]
    rw [getD_map_general _ hi [] [], getD_map_general List.length hi [] 0]
    exact ⟨List.take_left _ _, List.drop_left _ _, rfl⟩
  · intro i hi
    simp only [padDataBatch]
    rw [getD_map_general _ hi [] []]
    exact ⟨List.take_left _ _, List.drop_left _ _⟩

/-- Witness for padDataBatch_spec on the two-member batch [[3,4],[5]] with
labels [[4,2],[2]]. -/
theorem padDataBatch_spec_witness :
    (padDataBatch [[3, 4], [5]] [[4, 2], [2]]).2.1 = [2, 1]
    ∧ ∀ u ∈ (padDataBatch [[3, 4], [5]] [[4, 2], [2]]).1, u.length = 2 :=
  ⟨(padDataBatch_spec [[3, 4], [5]] [[4, 2], [2]] (by decide)).1,
   (padDataBatch_spec [[3, 4], [5]] [[4, 2], [2]] (by decide)).2.1⟩

end ArtML
